import Mathlib

/-!
Verification of the distributed batch scheduling and resume/retry subsystem
of the remeshing batch controller (`batch_controller_aliyun.py`).

The Python source is shallowly embedded: the progress files become an explicit
`Progress` state threaded through pure state transformers, the filesystem
oracles (output existence, parse results of stored JSON) become function /
`Option` parameters, and the external blender worker outcome becomes a `Bool`
argument.
-/

namespace Remesh

/-- `MAX_RETRIES = 3` from `batch_controller_aliyun.py` line 28. -/
def MAX_RETRIES : Nat := 3

/-- The per-rank progress record: the `completed_tasks` JSON list and the
`failed_tasks` JSON object mapping input path to retry count.  The Python dict
is embedded as an association list with insertion-order semantics. -/
structure Progress where
  completed : List String
  failed : List (String × Nat)
deriving DecidableEq, Repr

/-- Dict lookup `failed_tasks[input]` / `input in failed_tasks`. -/
def rcLookup : List (String × Nat) → String → Option Nat
  | [], _ => none
  | (k, v) :: rest, x => if k = x then some v else rcLookup rest x

/-- Dict deletion `del failed_tasks[input_path]`. -/
def rcErase : List (String × Nat) → String → List (String × Nat)
  | [], _ => []
  | (k, v) :: rest, x => if k = x then rcErase rest x else (k, v) :: rcErase rest x

/-- The failure branch of `run_blender_remesh` (lines 454-457):
`failed_tasks[input] += 1` if present, else `failed_tasks[input] = 1`.
Python dict update keeps the key position; a new key is appended. -/
def rcBump : List (String × Nat) → String → List (String × Nat)
  | [], x => [(x, 1)]
  | (k, v) :: rest, x => if k = x then (k, v + 1) :: rest else (k, v) :: rcBump rest x

/-- Success branch of `run_blender_remesh` (lines 427-433): append the input to
`completed_tasks` when absent, and delete it from `failed_tasks` when present. -/
def markSuccess (p : Progress) (input : String) : Progress :=
  { completed := if input ∈ p.completed then p.completed else p.completed ++ [input]
    failed := if (rcLookup p.failed input).isSome then rcErase p.failed input else p.failed }

/-- Failure branch of `run_blender_remesh` (lines 435-457): bump the retry
count; `completed_tasks` is left untouched by this branch. -/
def markFailure (p : Progress) (input : String) : Progress :=
  { completed := p.completed
    failed := rcBump p.failed input }

/-- The progress update performed by one call of `run_blender_remesh`, given
the external worker's outcome (`ok = true` iff the blender subprocess exited
with status 0). -/
def recordOutcome (p : Progress) (input : String) (ok : Bool) : Progress :=
  if ok then markSuccess p input else markFailure p input

/-- `run_blender_remesh` (lines 398-462): loads the current progress `p`,
records the worker outcome, saves, and returns the input path.  The
`CalledProcessError` of a failing worker is caught inside the function, so the
function is total: it returns normally on both outcomes. -/
def run_blender_remesh (p : Progress) (task : String × String) (ok : Bool) :
    Progress × String :=
  (recordOutcome p task.1 ok, task.1)

/-- Replaying a sequence of per-job outcomes through `run_blender_remesh`'s
load/record/save cycle. -/
def runOutcomes (p : Progress) (os : List (String × Bool)) : Progress :=
  os.foldl (fun q o => recordOutcome q o.1 o.2) p

/-- `load_progress` (lines 52-89).  `completedRaw` / `failedRaw` model the
stored files: `none` = file absent, `some none` = file present but
`json.load` raises `JSONDecodeError` (caught: warning printed, empty state
kept), `some (some v)` = parsed contents.  `detected` models the result of
`detect_completed_tasks()` used when `auto_detect` is set and nothing was
loaded. -/
def load_progress (completedRaw : Option (Option (List String)))
    (failedRaw : Option (Option (List (String × Nat))))
    (autoDetect : Bool) (detected : List String) : Progress :=
  let completed : List String :=
    match completedRaw with
    | none => []
    | some none => []
    | some (some l) => l
  let failed : List (String × Nat) :=
    match failedRaw with
    | none => []
    | some none => []
    | some (some m) => m
  let completed :=
    if autoDetect && completed.isEmpty then
      if detected.isEmpty then completed else detected
    else completed
  ⟨completed, failed⟩

/-- The decision structure of one iteration of the resume loop of `get_tasks`
(lines 358-379), given the `completed_tasks` list current at that iteration. -/
inductive ResumeClass where
  | skipCompleted
  | skipOutputExists
  | skipMaxRetries
  | retryAttempt (n : Nat)
  | pendingTask
deriving DecidableEq, Repr

/-- The branch order of the resume loop body: completed check, then
output-existence check, then the failed map with the `MAX_RETRIES` ceiling
(a retried task is reported as attempt `retry_count + 1`, line 377). -/
def classifyTask (completed : List String) (failed : List (String × Nat))
    (outExists : String → Bool) (t : String × String) : ResumeClass :=
  if t.1 ∈ completed then .skipCompleted
  else if outExists t.2 then .skipOutputExists
  else
    match rcLookup failed t.1 with
    | some rc => if MAX_RETRIES ≤ rc then .skipMaxRetries else .retryAttempt (rc + 1)
    | none => .pendingTask

/-- One iteration of the resume loop over `(pending_tasks, completed_tasks)`:
a task whose output already exists is additionally appended to
`completed_tasks` (lines 366-370, with the code's redundant membership
re-check), retried and pending tasks are appended to `pending_tasks`. -/
def resumeStep (failed : List (String × Nat)) (outExists : String → Bool)
    (acc : List (String × String) × List String) (t : String × String) :
    List (String × String) × List String :=
  match classifyTask acc.2 failed outExists t with
  | .skipCompleted => acc
  | .skipOutputExists => (acc.1, if t.1 ∈ acc.2 then acc.2 else acc.2 ++ [t.1])
  | .skipMaxRetries => acc
  | .retryAttempt _ => (acc.1 ++ [t], acc.2)
  | .pendingTask => (acc.1 ++ [t], acc.2)

/-- The resume-mode filtering of `get_tasks` (lines 352-384): fold the loop
body over the rank's task list, starting from the loaded progress; the first
component is `pending_tasks`, the second the updated `completed_tasks`. -/
def resumeFilter (tasks : List (String × String)) (completed : List String)
    (failed : List (String × Nat)) (outExists : String → Bool) :
    List (String × String) × List String :=
  tasks.foldl (resumeStep failed outExists) ([], completed)

/-- Whether the loop keeps a task for execution (classification is a retry or
pending), as a Boolean on the initially loaded `completed` list. -/
def keepTask (completed : List String) (failed : List (String × Nat))
    (outExists : String → Bool) (t : String × String) : Bool :=
  match classifyTask completed failed outExists t with
  | .retryAttempt _ => true
  | .pendingTask => true
  | _ => false

/-- `min(node_sizes)` (line 319): Python `min` of a list; `0` on the empty
list, which never arises since `world_size ≥ 1`. -/
def minVal : List Nat → Nat
  | [] => 0
  | [a] => a
  | a :: b :: l => min a (minVal (b :: l))

/-- `list.index(x)`: index of the first occurrence. -/
def listIndexOf : List Nat → Nat → Nat
  | [], _ => 0
  | a :: l, x => if a = x then 0 else listIndexOf l x + 1

/-- `node_sizes.index(min(node_sizes))` (line 319): the first (lowest) index
holding the minimum load. -/
def minIdx (l : List Nat) : Nat := listIndexOf l (minVal l)

/-- `node_sizes[target] += size` (line 325). -/
def bumpAt (l : List Nat) (i c : Nat) : List Nat := l.set i (l.getD i 0 + c)

/-- One iteration of the balancing loop (lines 317-325): pick the node with
minimum current load, append the job to its assignment list, add its size. -/
def balanceStep (st : List (List (Nat × α)) × List Nat) (job : Nat × α) :
    List (List (Nat × α)) × List Nat :=
  let t := minIdx st.2
  (st.1.set t (st.1.getD t [] ++ [job]), bumpAt st.2 t job.1)

/-- The lexicographic tuple comparison used by Python's `sort(reverse=True)`
on `(size, paths...)` tuples: `lexGe x y` means `y ≤ x` lexicographically. -/
def lexGe [LinearOrder α] (x y : Nat × α) : Prop :=
  y.1 < x.1 ∨ (y.1 = x.1 ∧ y.2 ≤ x.2)

instance [LinearOrder α] (x y : Nat × α) : Decidable (lexGe x y) := by
  unfold lexGe; infer_instance

/-- `sized_paths.sort(reverse=True)` (line 298) compares the tuples
`(size, paths...)` lexicographically, descending.  Insertion of one element
into a descending-sorted list. -/
def insertDesc [LinearOrder α] (x : Nat × α) : List (Nat × α) → List (Nat × α)
  | [] => [x]
  | y :: ys => if lexGe x y then x :: y :: ys else y :: insertDesc x ys

/-- Descending lexicographic sort of the `(size, id)` job tuples. -/
def sortDesc [LinearOrder α] : List (Nat × α) → List (Nat × α)
  | [] => []
  | x :: l => insertDesc x (sortDesc l)

/-- The size-balanced assignment of `get_tasks` (lines 296-334): sort the
sized jobs descending, then fold the balancing loop starting from `world_size`
empty assignment lists and zero loads.  Returns `(node_assignments,
node_sizes)`. -/
def sizeBalance [LinearOrder α] (jobs : List (Nat × α)) (W : Nat) :
    List (List (Nat × α)) × List Nat :=
  (sortDesc jobs).foldl balanceStep (List.replicate W [], List.replicate W 0)

/-- `max` of a list of loads (`0` on the empty list). -/
def maxVal : List Nat → Nat
  | [] => 0
  | a :: l => max a (maxVal l)

/-- The cumulative cost that an arbitrary assignment `f` (catalog index to
rank) places on rank `r`; used to state the load-balance bound against any,
in particular the optimal, assignment. -/
def altLoad (costs : List Nat) (f : Nat → Nat) (r : Nat) : Nat :=
  ∑ i ∈ Finset.range costs.length, if f i = r then costs.getD i 0 else 0

/-- Sequential model of `process_tasks_dynamic` (lines 465-578) on this rank's
jobs, each given with its blender outcome.  Each processed job runs
`run_blender_remesh`, which loads, records and saves the shared progress file;
the worker's `success` flag (line 521) is true whenever `run_blender_remesh`
returns normally — which it does on blender failures too, since it catches
`CalledProcessError` — so the run-local `completed` list (line 531) collects
every processed input and the run-local `failed` dict stays empty.  The
`finally` block (lines 563-568) then overwrites the progress files with that
local tracking.  First component: the progress file just before the final
flush; second: the progress file after it (the persisted final state). -/
def process_tasks_dynamic (prev : Progress) (jobs : List (String × Bool)) :
    Progress × Progress :=
  (runOutcomes prev jobs, ⟨jobs.map Prod.fst, []⟩)

/-- Mutual-exclusion invariant of a progress record: no identifier is both in
the completed list and a key of the failed map. -/
def Exclusive (p : Progress) : Prop :=
  ∀ x ∈ p.completed, rcLookup p.failed x = none

/-- `chunk_size = (len(all_paths) + world_size - 1) // world_size`
(line 340). -/
def chunkSize (n W : Nat) : Nat := (n + W - 1) / W

/-- The standard index-based partitioning of `get_tasks` (lines 338-343):
`start = rank * chunk_size`, `end = min((rank + 1) * chunk_size, len)`,
shard = `all_paths[start:end]`. -/
def chunkShard (l : List α) (rank W : Nat) : List α :=
  let c := chunkSize l.length W
  (l.take (min ((rank + 1) * c) l.length)).drop (rank * c)

/-! ## Association-list lemmas for the failed-task map -/

theorem rcLookup_bump_self (f : List (String × Nat)) (x : String) :
    rcLookup (rcBump f x) x = some ((rcLookup f x).getD 0 + 1) := by
  induction f with
  | nil => simp [rcBump, rcLookup]
  | cons kv rest ih =>
    obtain ⟨k, v⟩ := kv
    by_cases h : k = x
    · simp [rcBump, rcLookup, h]
    · simp [rcBump, rcLookup, h, ih]

theorem rcLookup_bump_ne (f : List (String × Nat)) (x y : String) (h : y ≠ x) :
    rcLookup (rcBump f x) y = rcLookup f y := by
  induction f with
  | nil =>
    have hxy : ¬(x = y) := fun hh => h hh.symm
    simp [rcBump, rcLookup, hxy]
  | cons kv rest ih =>
    obtain ⟨k, v⟩ := kv
    by_cases hk : k = x
    · have hky : ¬(k = y) := fun hh => h (hh ▸ hk : y = x)
      have hxy : ¬(x = y) := fun hh => h hh.symm
      simp [rcBump, rcLookup, hk, hky, hxy]
    · by_cases hky : k = y <;> simp [rcBump, rcLookup, hk, hky, h, ih]

theorem rcLookup_erase_self (f : List (String × Nat)) (x : String) :
    rcLookup (rcErase f x) x = none := by
  induction f with
  | nil => simp [rcErase, rcLookup]
  | cons kv rest ih =>
    obtain ⟨k, v⟩ := kv
    by_cases h : k = x <;> simp [rcErase, rcLookup, h, ih]

theorem rcLookup_erase_ne (f : List (String × Nat)) (x y : String) (h : y ≠ x) :
    rcLookup (rcErase f x) y = rcLookup f y := by
  induction f with
  | nil => simp [rcErase]
  | cons kv rest ih =>
    obtain ⟨k, v⟩ := kv
    by_cases hk : k = x
    · have hky : ¬(k = y) := fun hh => h (hh ▸ hk : y = x)
      have hxy : ¬(x = y) := fun hh => h hh.symm
      simp [rcErase, rcLookup, hk, hky, hxy, ih]
    · by_cases hky : k = y <;> simp [rcErase, rcLookup, hk, hky, h, ih]

theorem mem_completed_markSuccess (p : Progress) (x y : String)
    (h : y ∈ (markSuccess p x).completed) : y ∈ p.completed ∨ y = x := by
  by_cases hx : x ∈ p.completed
  · exact Or.inl (by simpa [markSuccess, hx] using h)
  · simpa [markSuccess, hx] using h

/-! ## C9: malformed progress files are treated as empty state -/

/-- C9: loading a progress file that exists but fails to parse
(`some none`) gives the same state as loading a missing file; both malformed
files together give the empty record.  `load_progress` is a total function:
a malformed progress file never aborts the run (the `JSONDecodeError` is
caught, a warning is printed, and the empty list is kept). -/
theorem c9_corrupt_progress_recovered (c : Option (Option (List String)))
    (f : Option (Option (List (String × Nat)))) (a : Bool) (d : List String) :
    load_progress (some none) f a d = load_progress none f a d ∧
    load_progress c (some none) a d = load_progress c none a d ∧
    load_progress (some none) (some none) false d = ⟨[], []⟩ := by
  refine ⟨rfl, ?_, rfl⟩
  cases c with
  | none => rfl
  | some pc => cases pc <;> rfl

/-! ## C10: a worker failure never propagates to the caller -/

/-- C10: on a failing external worker, `run_blender_remesh` (a total
function: the `CalledProcessError` is caught internally, so the pool and the
remaining jobs are unaffected) returns the input path normally, increments the
job's retry count by exactly one (starting at 1 for a first failure), leaves
the completed list unchanged, and the returned record is the one saved. -/
theorem c10_failure_contained (p : Progress) (task : String × String) :
    (run_blender_remesh p task false).2 = task.1 ∧
    rcLookup (run_blender_remesh p task false).1.failed task.1 =
      some ((rcLookup p.failed task.1).getD 0 + 1) ∧
    (run_blender_remesh p task false).1.completed = p.completed := by
  refine ⟨rfl, ?_, rfl⟩
  simp [run_blender_remesh, recordOutcome, markFailure, rcLookup_bump_self]

/-! ## C3: the completed / failed mutual-exclusion invariant -/

/-- C3 counterexample: the outcome sequence "job a succeeds, then job a
fails" leaves `a` in the completed list and in the failed map at the same
time — the failure branch of `run_blender_remesh` does not remove the job
from `completed_tasks`. -/
theorem c3_counterexample_success_then_failure :
    ("a" ∈ (runOutcomes ⟨[], []⟩ [("a", true), ("a", false)]).completed) ∧
    rcLookup (runOutcomes ⟨[], []⟩ [("a", true), ("a", false)]).failed "a" = some 1 := by
  decide

/-- C3 amended: marking a success preserves mutual exclusion (it deletes the
job from the failed map), and marking a failure preserves it only for jobs not
currently in the completed list, since the failure branch leaves
`completed_tasks` untouched. -/
theorem c3_amended_exclusion_preservation (p : Progress) (x : String)
    (h : Exclusive p) :
    Exclusive (recordOutcome p x true) ∧
    (x ∉ p.completed → Exclusive (recordOutcome p x false)) := by
  constructor
  · intro y hy
    rcases mem_completed_markSuccess p x y (by simpa [recordOutcome] using hy) with hmem | rfl
    · by_cases hxy : y = x
      · subst hxy
        simp only [recordOutcome, if_pos, markSuccess]
        by_cases hs : (rcLookup p.failed y).isSome
        · simp [hs, rcLookup_erase_self]
        · simpa [hs] using Option.not_isSome_iff_eq_none.mp hs
      · have := h y hmem
        simp only [recordOutcome, if_pos, markSuccess]
        by_cases hs : (rcLookup p.failed x).isSome
        · simp [hs, rcLookup_erase_ne p.failed x y hxy, this]
        · simp [hs, this]
    · simp only [recordOutcome, if_pos, markSuccess]
      by_cases hs : (rcLookup p.failed y).isSome
      · simp [hs, rcLookup_erase_self]
      · simpa [hs] using Option.not_isSome_iff_eq_none.mp hs
  · intro hx y hy
    have hyc : y ∈ p.completed := by simpa [recordOutcome, markFailure] using hy
    have hxy : y ≠ x := fun hh => hx (hh ▸ hyc)
    simp [recordOutcome, markFailure, rcLookup_bump_ne p.failed x y hxy, h y hyc]

/-- Witness for the amended C3 at a concrete record. -/
theorem c3_amended_exclusion_preservation_witness :
    Exclusive (Progress.mk ["a"] []) ∧
    (Exclusive (recordOutcome ⟨["a"], []⟩ "b" true) ∧
      ("b" ∉ (Progress.mk ["a"] []).completed →
        Exclusive (recordOutcome ⟨["a"], []⟩ "b" false))) :=
  ⟨fun _ _ => rfl, c3_amended_exclusion_preservation ⟨["a"], []⟩ "b" (fun _ _ => rfl)⟩

/-! ## C7: state persisted by an interrupted dynamic run -/

theorem runOutcomes_completed_mono (os : List (String × Bool)) (p : Progress)
    (x : String) (h : x ∈ p.completed) : x ∈ (runOutcomes p os).completed := by
  induction os generalizing p with
  | nil => simpa [runOutcomes] using h
  | cons o os ih =>
    have hstep : x ∈ (recordOutcome p o.1 o.2).completed := by
      cases o.2 with
      | false => simpa [recordOutcome, markFailure] using h
      | true =>
        by_cases hm : o.1 ∈ p.completed
        · simpa [recordOutcome, markSuccess, hm] using h
        · simp [recordOutcome, markSuccess, hm]
          exact Or.inl h
    simpa [runOutcomes] using ih (recordOutcome p o.1 o.2) hstep

/-- C7 counterexample: rank state with `a` previously completed; the run is
interrupted with one in-flight job `b` whose blender invocation fails.  The
flushed final state neither contains the previous completion `a` nor records
`b` as failed — instead `b` is listed as completed (the worker's `success`
flag is set whenever `run_blender_remesh` returns, which it also does on
failures) and the `finally` flush overwrites the merged per-job saves with the
run-local tracking. -/
theorem c7_counterexample_interrupted_flush :
    ("a" ∉ ((process_tasks_dynamic ⟨["a"], []⟩ [("b", false)]).2).completed) ∧
    rcLookup ((process_tasks_dynamic ⟨["a"], []⟩ [("b", false)]).2).failed "b" = none ∧
    ("b" ∈ ((process_tasks_dynamic ⟨["a"], []⟩ [("b", false)]).2).completed) ∧
    (process_tasks_dynamic ⟨["a"], []⟩ [("b", false)]).1 =
      ⟨["a"], [("b", 1)]⟩ := by
  decide

/-- C7 amended: the per-job saves performed before the final flush do retain
every previously recorded completion, but the `finally` flush of
`process_tasks_dynamic` replaces the persisted files with exactly the
run-local tracking — every processed input marked completed and an empty
failed map — so any identifier that is not an input of the current run (in
particular every previously recorded completion not re-processed) is absent
from the final persisted state. -/
theorem c7_amended_flush_overwrites (prev : Progress) (jobs : List (String × Bool)) :
    (∀ x ∈ prev.completed, x ∈ ((process_tasks_dynamic prev jobs).1).completed) ∧
    (process_tasks_dynamic prev jobs).2 = ⟨jobs.map Prod.fst, []⟩ ∧
    (∀ x, x ∉ jobs.map Prod.fst → x ∉ ((process_tasks_dynamic prev jobs).2).completed) := by
  refine ⟨?_, rfl, ?_⟩
  · intro x hx
    exact runOutcomes_completed_mono jobs prev x hx
  · intro x hx hmem
    exact hx (by simpa [process_tasks_dynamic] using hmem)

/-- Witness for the amended C7 at a concrete record. -/
theorem c7_amended_flush_overwrites_witness :
    ("a" ∈ ((process_tasks_dynamic ⟨["a"], []⟩ [("b", true)]).1).completed) ∧
    ("a" ∉ ((process_tasks_dynamic ⟨["a"], []⟩ [("b", true)]).2).completed) :=
  ⟨(c7_amended_flush_overwrites ⟨["a"], []⟩ [("b", true)]).1 "a" (by decide),
   (c7_amended_flush_overwrites ⟨["a"], []⟩ [("b", true)]).2.2 "a" (by decide)⟩

/-! ## C8 / C1 / C4: the contiguous index-based partitioning -/

theorem length_le_mul_chunkSize (n W : Nat) (hW : 1 ≤ W) :
    n ≤ W * chunkSize n W := by
  unfold chunkSize
  have hdm := Nat.div_add_mod (n + W - 1) W
  have hlt : (n + W - 1) % W < W := Nat.mod_lt _ (by omega)
  omega

/-- C8 counterexample: with a three-element catalog, `world_size = 2` and the
out-of-range `rank = 2`, the index-based partitioning of `get_tasks` silently
returns the empty shard — there is no validation and no `ConfigurationError`
(`chunkShard` is a total function). -/
theorem c8_counterexample_no_validation :
    chunkShard [0, 1, 2] 2 2 = ([] : List Nat) := by
  decide

theorem chunkShard_out_of_range (l : List α) (r W : Nat)
    (hW : 1 ≤ W) (hr : W ≤ r) : chunkShard l r W = [] := by
  unfold chunkShard
  apply List.drop_eq_nil_of_le
  have h1 : (l.take (min ((r + 1) * chunkSize l.length W) l.length)).length ≤ l.length := by
    simp [List.length_take]
  have h2 : l.length ≤ W * chunkSize l.length W := length_le_mul_chunkSize l.length W hW
  have h3 : W * chunkSize l.length W ≤ r * chunkSize l.length W :=
    Nat.mul_le_mul_right _ hr
  omega

/-- C8 amended: the code never validates `rank` / `world_size`; for every
`rank ≥ world_size ≥ 1` the slice bounds land beyond the catalog and the rank
silently receives the empty shard (and `world_size = 0` raises an unhandled
`ZeroDivisionError` in Python rather than a `ConfigurationError`). -/
theorem c8_amended_out_of_range_rank_empty (l : List α) (r W : Nat)
    (hW : 1 ≤ W) (hr : W ≤ r) : chunkShard l r W = [] :=
  chunkShard_out_of_range l r W hW hr

/-- Witness for the amended C8. -/
theorem c8_amended_out_of_range_rank_empty_witness :
    1 ≤ 2 ∧ 2 ≤ 3 ∧ chunkShard [0, 1, 2, 3, 4] 3 2 = ([] : List Nat) :=
  ⟨by decide, by decide,
   c8_amended_out_of_range_rank_empty [0, 1, 2, 3, 4] 3 2 (by decide) (by decide)⟩

/-- C4 counterexample: the index-based partitioning cited for round-robin is
contiguous chunking: on the five-element catalog with `world_size = 2`,
rank 0 receives the first three elements, not the even-indexed ones, and
rank 1 receives the last two. -/
theorem c4_counterexample_not_round_robin :
    chunkShard [0, 1, 2, 3, 4] 0 2 = [0, 1, 2] ∧
    chunkShard [0, 1, 2, 3, 4] 0 2 ≠ [0, 2, 4] ∧
    chunkShard [0, 1, 2, 3, 4] 1 2 = [3, 4] := by
  decide

/-- C4 amended: the program has no round-robin strategy; its index-based
partitioning is contiguous, sending the job at catalog index `i` to rank
`i / ceil(N/W)` (at offset `i % ceil(N/W)` within that shard), not to rank
`i % W`. -/
theorem c4_amended_contiguous_assignment (l : List α) (W : Nat) (hW : 1 ≤ W)
    (i : Nat) (hi : i < l.length) :
    (chunkShard l (i / chunkSize l.length W) W)[i % chunkSize l.length W]? =
      l[i]? := by
  have hc : 1 ≤ chunkSize l.length W := by
    unfold chunkSize
    have h1 : 1 * W ≤ l.length + W - 1 := by omega
    exact (Nat.le_div_iff_mul_le (by omega)).mpr h1
  have key : ∀ c : Nat, 1 ≤ c →
      ((l.take (min ((i / c + 1) * c) l.length)).drop (i / c * c))[i % c]? = l[i]? := by
    intro c hc1
    have hmod : i % c < c := Nat.mod_lt _ (by omega)
    have hieq : i / c * c + i % c = i := Nat.div_add_mod' i c
    have hilt : i < (i / c + 1) * c := by
      have hexp : (i / c + 1) * c = i / c * c + c := by ring
      omega
    have hbound : i / c * c + i % c < min ((i / c + 1) * c) l.length := by
      rw [hieq]; exact lt_min hilt hi
    rw [List.getElem?_drop, List.getElem?_take_of_lt hbound, hieq]
  simpa [chunkShard] using key (chunkSize l.length W) hc

/-- Witness for the amended C4. -/
theorem c4_amended_contiguous_assignment_witness :
    1 ≤ 2 ∧ 3 < 5 ∧
    (chunkShard [10, 11, 12, 13, 14] (3 / chunkSize 5 2) 2)[3 % chunkSize 5 2]? =
      [10, 11, 12, 13, 14][3]? :=
  ⟨by decide, by decide, by
    have h := c4_amended_contiguous_assignment [10, 11, 12, 13, 14] 2 (by decide) 3 (by decide)
    simpa using h⟩

/-- Concatenating the slices `[r*c, min((r+1)*c, N))` for `r = 0 .. W-1`
reproduces the first `min(W*c, N)` elements of the list. -/
theorem slices_join (l : List α) (c : Nat) (W : Nat) :
    ((List.range W).flatMap fun r =>
        (l.take (min ((r + 1) * c) l.length)).drop (r * c)) =
      l.take (min (W * c) l.length) := by
  induction W with
  | zero => simp
  | succ W ih =>
    rw [List.range_succ, List.flatMap_append, ih]
    simp only [List.flatMap_cons, List.flatMap_nil, List.append_nil]
    by_cases h : l.length ≤ W * c
    · have hWc : W * c ≤ (W + 1) * c := Nat.mul_le_mul_right c (Nat.le_succ W)
      have h1 : min (W * c) l.length = l.length := min_eq_right h
      have h2 : min ((W + 1) * c) l.length = l.length := min_eq_right (le_trans h hWc)
      rw [h1, h2, List.take_length, List.drop_eq_nil_of_le h, List.append_nil]
    · push_neg at h
      have h1 : min (W * c) l.length = W * c := min_eq_left (le_of_lt h)
      have hWc_le : W * c ≤ min ((W + 1) * c) l.length :=
        le_min (Nat.mul_le_mul_right c (Nat.le_succ W)) (le_of_lt h)
      rw [h1]
      conv_rhs => rw [← List.take_append_drop (W * c) (l.take (min ((W + 1) * c) l.length))]
      congr 1
      rw [List.take_take, min_eq_left hWc_le]

/-- C1: for `world_size ≥ 1`, concatenating the contiguous shards of the
ranks `0 .. W-1` in rank order yields back exactly the catalog (each catalog
position appears exactly once: nothing duplicated, nothing omitted), and on a
duplicate-free catalog the shards of two distinct ranks are disjoint. -/
theorem c1_contiguous_partition (l : List α) (W : Nat) (hW : 1 ≤ W) :
    ((List.range W).flatMap fun r => chunkShard l r W) = l ∧
    (l.Nodup → ∀ r₁ r₂, r₁ ≠ r₂ → ∀ x, x ∈ chunkShard l r₁ W → x ∉ chunkShard l r₂ W) := by
  have hjoin : ((List.range W).flatMap fun r => chunkShard l r W) = l := by
    have hs := slices_join l (chunkSize l.length W) W
    have hN : l.length ≤ W * chunkSize l.length W := length_le_mul_chunkSize l.length W hW
    have hmin : min (W * chunkSize l.length W) l.length = l.length := min_eq_right hN
    simpa [chunkShard, hmin, List.take_length] using hs
  refine ⟨hjoin, ?_⟩
  intro hnodup r₁ r₂ hne x hx1 hx2
  by_cases h1 : r₁ < W
  case neg =>
    rw [chunkShard_out_of_range l r₁ W hW (by omega)] at hx1
    simp at hx1
  by_cases h2 : r₂ < W
  case neg =>
    rw [chunkShard_out_of_range l r₂ W hW (by omega)] at hx2
    simp at hx2
  have hnd : ((List.range W).flatMap fun r => chunkShard l r W).Nodup := by
    rw [hjoin]; exact hnodup
  have hpw := (List.nodup_flatMap.mp hnd).2
  have key : ∀ i j, i < j → j < W →
      List.Disjoint (chunkShard l i W) (chunkShard l j W) := by
    intro i j hij hj
    have hgl := List.pairwise_iff_getElem.mp hpw i j
      (by simpa using lt_trans hij hj) (by simpa using hj) hij
    simpa [Function.onFun] using hgl
  rcases Nat.lt_or_ge r₁ r₂ with hlt | hge
  · exact key r₁ r₂ hlt h2 hx1 hx2
  · have hlt : r₂ < r₁ := lt_of_le_of_ne hge fun hh => hne hh.symm
    exact key r₂ r₁ hlt h1 hx2 hx1

/-- Witness for C1 on a seven-element catalog with three ranks. -/
theorem c1_contiguous_partition_witness :
    (1 : Nat) ≤ 3 ∧
    ((List.range 3).flatMap fun r => chunkShard [0, 1, 2, 3, 4, 5, 6] r 3) =
      [0, 1, 2, 3, 4, 5, 6] ∧
    (0 : Nat) ∉ chunkShard [0, 1, 2, 3, 4, 5, 6] 1 3 := by
  refine ⟨by decide, (c1_contiguous_partition [0, 1, 2, 3, 4, 5, 6] 3 (by decide)).1, ?_⟩
  exact (c1_contiguous_partition [0, 1, 2, 3, 4, 5, 6] 3 (by decide)).2
    (by decide) 0 1 (by decide) 0 (by decide)

/-! ## C2: resume-mode classification -/

theorem classifyTask_congr (c c₀ : List String) (failed : List (String × Nat))
    (oe : String → Bool) (t : String × String) (h : t.1 ∈ c ↔ t.1 ∈ c₀) :
    classifyTask c failed oe t = classifyTask c₀ failed oe t := by
  unfold classifyTask
  by_cases hm : t.1 ∈ c₀
  · simp [hm, h.mpr hm]
  · have hc : t.1 ∉ c := fun hh => hm (h.mp hh)
    simp [hm, hc]

/-- Folding the resume-loop body over tasks with pairwise-distinct inputs
appends to `pending_tasks` exactly the kept tasks, where keeping is decided
against the initially loaded completed list. -/
theorem resumeFold_pending (failed : List (String × Nat)) (oe : String → Bool)
    (c₀ : List String) (ts : List (String × String)) :
    ∀ (p : List (String × String)) (c : List String),
      (∀ u ∈ ts, (u.1 ∈ c ↔ u.1 ∈ c₀)) → (ts.map Prod.fst).Nodup →
      (ts.foldl (resumeStep failed oe) (p, c)).1 =
        p ++ ts.filter (keepTask c₀ failed oe) := by
  induction ts with
  | nil => intro p c _ _; simp
  | cons t ts ih =>
    intro p c hiff hnodup
    have hiff_t : t.1 ∈ c ↔ t.1 ∈ c₀ := hiff t (by simp)
    have hcls : classifyTask c failed oe t = classifyTask c₀ failed oe t :=
      classifyTask_congr c c₀ failed oe t hiff_t
    have hnodup' : (t.1 :: ts.map Prod.fst).Nodup := by simpa using hnodup
    have hpair := List.nodup_cons.mp hnodup'
    have hhead : t.1 ∉ ts.map Prod.fst := hpair.1
    have hnd_tail : (ts.map Prod.fst).Nodup := hpair.2
    have hiff_tail_same : ∀ u ∈ ts, (u.1 ∈ c ↔ u.1 ∈ c₀) := fun u hu => hiff u (by simp [hu])
    rw [List.foldl_cons]
    cases hc : classifyTask c₀ failed oe t with
    | skipCompleted =>
      have hstep : resumeStep failed oe (p, c) t = (p, c) := by
        simp [resumeStep, hcls, hc]
      rw [hstep, ih p c hiff_tail_same hnd_tail]
      simp [keepTask, hc]
    | skipMaxRetries =>
      have hstep : resumeStep failed oe (p, c) t = (p, c) := by
        simp [resumeStep, hcls, hc]
      rw [hstep, ih p c hiff_tail_same hnd_tail]
      simp [keepTask, hc]
    | skipOutputExists =>
      have hstep : resumeStep failed oe (p, c) t =
          (p, if t.1 ∈ c then c else c ++ [t.1]) := by
        simp [resumeStep, hcls, hc]
      rw [hstep]
      have hiff_tail : ∀ u ∈ ts,
          (u.1 ∈ (if t.1 ∈ c then c else c ++ [t.1]) ↔ u.1 ∈ c₀) := by
        intro u hu
        have hu_ne : u.1 ≠ t.1 := by
          intro hh
          apply hhead
          rw [← hh]
          exact List.mem_map_of_mem Prod.fst hu
        by_cases hmem : t.1 ∈ c
        · simpa [hmem] using hiff u (by simp [hu])
        · have : u.1 ∈ c ++ [t.1] ↔ u.1 ∈ c := by simp [hu_ne]
          simp only [hmem, if_neg, ite_false]
          rw [this]
          exact hiff u (by simp [hu])
      rw [ih p _ hiff_tail hnd_tail]
      simp [keepTask, hc]
    | retryAttempt n =>
      have hstep : resumeStep failed oe (p, c) t = (p ++ [t], c) := by
        simp [resumeStep, hcls, hc]
      rw [hstep, ih (p ++ [t]) c hiff_tail_same hnd_tail]
      simp [keepTask, hc]
    | pendingTask =>
      have hstep : resumeStep failed oe (p, c) t = (p ++ [t], c) := by
        simp [resumeStep, hcls, hc]
      rw [hstep, ih (p ++ [t]) c hiff_tail_same hnd_tail]
      simp [keepTask, hc]

theorem resumeFilter_pending_eq (tasks : List (String × String))
    (completed : List String) (failed : List (String × Nat))
    (oe : String → Bool) (hnodup : (tasks.map Prod.fst).Nodup) :
    (resumeFilter tasks completed failed oe).1 =
      tasks.filter (keepTask completed failed oe) := by
  unfold resumeFilter
  have h := resumeFold_pending failed oe completed tasks [] completed
    (fun u _ => Iff.rfl) hnodup
  simpa using h

/-- C2: on a shard whose inputs are pairwise distinct, resume-mode filtering
realizes the claimed classification: a job already completed or whose output
exists is dropped; a job in the failed map at or above `MAX_RETRIES` is
dropped; a failed job below the ceiling is kept and classified as retry
attempt `retry_count + 1`; every other job is pending and kept. -/
theorem c2_resume_classification (tasks : List (String × String))
    (completed : List String) (failed : List (String × Nat))
    (oe : String → Bool) (hnodup : (tasks.map Prod.fst).Nodup)
    (t : String × String) (ht : t ∈ tasks) :
    ((t.1 ∈ completed ∨ oe t.2 = true) →
        t ∉ (resumeFilter tasks completed failed oe).1) ∧
    (∀ rc, rcLookup failed t.1 = some rc → MAX_RETRIES ≤ rc →
        t ∉ (resumeFilter tasks completed failed oe).1) ∧
    (t.1 ∉ completed → oe t.2 = false →
      ∀ rc, rcLookup failed t.1 = some rc → rc < MAX_RETRIES →
        t ∈ (resumeFilter tasks completed failed oe).1 ∧
        classifyTask completed failed oe t = .retryAttempt (rc + 1)) ∧
    (t.1 ∉ completed → oe t.2 = false → rcLookup failed t.1 = none →
        t ∈ (resumeFilter tasks completed failed oe).1) := by
  rw [resumeFilter_pending_eq tasks completed failed oe hnodup]
  refine ⟨?_, ?_, ?_, ?_⟩
  · rintro (h | h) hmem
    · have := (List.mem_filter.mp hmem).2
      simp [keepTask, classifyTask, h] at this
    · have := (List.mem_filter.mp hmem).2
      by_cases hm : t.1 ∈ completed <;> simp [keepTask, classifyTask, hm, h] at this
  · intro rc hrc hge hmem
    have := (List.mem_filter.mp hmem).2
    by_cases hm : t.1 ∈ completed
    · simp [keepTask, classifyTask, hm] at this
    · by_cases hoe : oe t.2 <;> simp [keepTask, classifyTask, hm, hoe, hrc, hge] at this
  · intro hm hoe rc hrc hlt
    have hnle : ¬ MAX_RETRIES ≤ rc := by omega
    constructor
    · refine List.mem_filter.mpr ⟨ht, ?_⟩
      simp [keepTask, classifyTask, hm, hoe, hrc, hnle]
    · simp [classifyTask, hm, hoe, hrc, hnle]
  · intro hm hoe hrc
    refine List.mem_filter.mpr ⟨ht, ?_⟩
    simp [keepTask, classifyTask, hm, hoe, hrc]

/-- Witness for C2: a shard with one fresh job, one once-failed job, one
exhausted job and one already-completed job. -/
theorem c2_resume_classification_witness :
    (("d", "od") ∈ (resumeFilter
        [("a", "oa"), ("c", "oc"), ("d", "od"), ("e", "oe")]
        ["a"] [("c", 3), ("d", 1)] (fun _ => false)).1) ∧
    classifyTask ["a"] [("c", 3), ("d", 1)] (fun _ => false) ("d", "od") =
      .retryAttempt 2 := by
  have h := c2_resume_classification
    [("a", "oa"), ("c", "oc"), ("d", "od"), ("e", "oe")]
    ["a"] [("c", 3), ("d", 1)] (fun _ => false)
    (by decide) ("d", "od") (by decide)
  exact h.2.2.1 (by decide) rfl 1 (by decide) (by decide)

/-! ## Minimum / maximum / index helper lemmas for the balancing loop -/

theorem minVal_mem : ∀ l : List Nat, l ≠ [] → minVal l ∈ l
  | [], h => absurd rfl h
  | [a], _ => by simp [minVal]
  | a :: b :: m, _ => by
    rcases min_cases a (minVal (b :: m)) with ⟨heq, _⟩ | ⟨heq, _⟩
    · simp [minVal, heq]
    · have := minVal_mem (b :: m) (by simp)
      simp only [minVal, heq]
      exact List.mem_cons_of_mem a this

theorem minVal_le : ∀ l : List Nat, ∀ x ∈ l, minVal l ≤ x
  | [], x, hx => absurd hx (List.not_mem_nil x)
  | [a], x, hx => by
    rcases List.mem_singleton.mp hx with rfl
    simp [minVal]
  | a :: b :: m, x, hx => by
    rcases List.mem_cons.mp hx with rfl | hx'
    · simp [minVal]
    · have := minVal_le (b :: m) x hx'
      simp only [minVal]
      exact le_trans (min_le_right _ _) this

theorem le_maxVal : ∀ l : List Nat, ∀ x ∈ l, x ≤ maxVal l
  | [], x, hx => absurd hx (List.not_mem_nil x)
  | a :: m, x, hx => by
    rcases List.mem_cons.mp hx with rfl | hx'
    · simp [maxVal]
    · have := le_maxVal m x hx'
      simp only [maxVal]
      exact le_trans this (le_max_right _ _)

theorem maxVal_mem : ∀ l : List Nat, l ≠ [] → maxVal l ∈ l
  | [], h => absurd rfl h
  | [a], _ => by simp [maxVal]
  | a :: b :: m, _ => by
    have hm : maxVal (a :: b :: m) = max a (maxVal (b :: m)) := rfl
    rcases max_cases a (maxVal (b :: m)) with ⟨heq, _⟩ | ⟨heq, _⟩
    · rw [hm, heq]; simp
    · rw [hm, heq]
      exact List.mem_cons_of_mem a (maxVal_mem (b :: m) (by simp))

theorem listIndexOf_lt_length : ∀ (l : List Nat) (x : Nat), x ∈ l →
    listIndexOf l x < l.length
  | [], x, hx => absurd hx (List.not_mem_nil x)
  | a :: m, x, hx => by
    by_cases h : a = x
    · simp [listIndexOf, h]
    · have hm : x ∈ m := by
        rcases List.mem_cons.mp hx with rfl | hx'
        · exact absurd rfl h
        · exact hx'
      have := listIndexOf_lt_length m x hm
      simp [listIndexOf, h]
      omega

theorem getD_listIndexOf : ∀ (l : List Nat) (x : Nat), x ∈ l →
    l.getD (listIndexOf l x) 0 = x
  | [], x, hx => absurd hx (List.not_mem_nil x)
  | a :: m, x, hx => by
    by_cases h : a = x
    · simp [listIndexOf, h]
    · have hm : x ∈ m := by
        rcases List.mem_cons.mp hx with rfl | hx'
        · exact absurd rfl h
        · exact hx'
      simp only [listIndexOf, h, if_neg, ite_false, List.getD_cons_succ]
      exact getD_listIndexOf m x hm

theorem listIndexOf_first : ∀ (l : List Nat) (x : Nat) (j : Nat),
    j < listIndexOf l x → l.getD j 0 ≠ x
  | [], _, j, hj => by simp [listIndexOf] at hj
  | a :: m, x, j, hj => by
    by_cases h : a = x
    · simp [listIndexOf, h] at hj
    · cases j with
      | zero => simpa using h
      | succ j' =>
        simp only [listIndexOf, h, if_neg, ite_false] at hj
        simpa using listIndexOf_first m x j' (by omega)

theorem minIdx_lt_length (l : List Nat) (h : l ≠ []) : minIdx l < l.length :=
  listIndexOf_lt_length l (minVal l) (minVal_mem l h)

theorem getD_minIdx (l : List Nat) (h : l ≠ []) : l.getD (minIdx l) 0 = minVal l :=
  getD_listIndexOf l (minVal l) (minVal_mem l h)

theorem getD_mem : ∀ (l : List Nat) (j : Nat), j < l.length → l.getD j 0 ∈ l
  | [], j, hj => by simp at hj
  | a :: m, 0, _ => by simp
  | a :: m, j + 1, hj => by
    have := getD_mem m j (by simpa using hj)
    simpa using List.mem_cons_of_mem a this

theorem minIdx_first (l : List Nat) (j : Nat) (hj : j < minIdx l) (h : l ≠ []) :
    minVal l < l.getD j 0 := by
  have hne : l.getD j 0 ≠ minVal l := listIndexOf_first l (minVal l) j hj
  have hjl : j < l.length := lt_trans hj (minIdx_lt_length l h)
  have hle : minVal l ≤ l.getD j 0 := minVal_le l _ (getD_mem l j hjl)
  omega

theorem sum_set_getD : ∀ (l : List Nat) (i x : Nat), i < l.length →
    (l.set i x).sum + l.getD i 0 = l.sum + x
  | [], i, x, hi => by simp at hi
  | a :: m, 0, x, _ => by simp [List.sum_cons]; omega
  | a :: m, i + 1, x, hi => by
    have := sum_set_getD m i x (by simpa using hi)
    simp only [List.set_cons_succ, List.sum_cons, List.getD_cons_succ]
    omega

theorem length_mul_minVal_le_sum : ∀ l : List Nat, l.length * minVal l ≤ l.sum
  | [] => by simp
  | [a] => by simp [minVal]
  | a :: b :: m => by
    have ih := length_mul_minVal_le_sum (b :: m)
    have h1 : minVal (a :: b :: m) ≤ a := minVal_le _ a (by simp)
    have h2 : minVal (a :: b :: m) ≤ minVal (b :: m) :=
      minVal_le _ _ (List.mem_cons_of_mem a (minVal_mem (b :: m) (by simp)))
    have h3 : (b :: m).length * minVal (a :: b :: m) ≤ (b :: m).length * minVal (b :: m) :=
      Nat.mul_le_mul_left _ h2
    have hlen : (a :: b :: m).length = (b :: m).length + 1 := by simp
    have hsum : (a :: b :: m).sum = a + (b :: m).sum := by simp
    calc (a :: b :: m).length * minVal (a :: b :: m)
        = (b :: m).length * minVal (a :: b :: m) + minVal (a :: b :: m) := by
          rw [hlen]; ring
      _ ≤ (b :: m).length * minVal (b :: m) + a := Nat.add_le_add h3 h1
      _ ≤ (b :: m).sum + a := Nat.add_le_add_right ih a
      _ = (a :: b :: m).sum := by rw [hsum]; omega

/-! ## C5: the greedy load-balance bound -/

theorem sizes_fold_eq [LinearOrder α] :
    ∀ (js : List (Nat × α)) (st : List (List (Nat × α)) × List Nat),
      (js.foldl balanceStep st).2 =
        (js.map Prod.fst).foldl (fun s c => bumpAt s (minIdx s) c) st.2
  | [], st => rfl
  | j :: js, st => by
    rw [List.foldl_cons, sizes_fold_eq js (balanceStep st j)]
    rfl

theorem bumpAt_ne_nil (s : List Nat) (i c : Nat) (hs : s ≠ []) :
    bumpAt s i c ≠ [] := by
  have hlen : (bumpAt s i c).length = s.length := by simp [bumpAt]
  have hpos : 0 < s.length := List.length_pos.mpr hs
  exact List.ne_nil_of_length_pos (by omega)

theorem fold_bump_length : ∀ (js : List Nat) (s : List Nat),
    (js.foldl (fun s c => bumpAt s (minIdx s) c) s).length = s.length
  | [], s => rfl
  | c :: js, s => by
    rw [List.foldl_cons, fold_bump_length js]
    simp [bumpAt]

theorem fold_bump_sum : ∀ (js : List Nat) (s : List Nat), s ≠ [] →
    (js.foldl (fun s c => bumpAt s (minIdx s) c) s).sum = s.sum + js.sum
  | [], s, _ => by simp
  | c :: js, s, hs => by
    have hi : minIdx s < s.length := minIdx_lt_length s hs
    have hsum : (bumpAt s (minIdx s) c).sum = s.sum + c := by
      have hset := sum_set_getD s (minIdx s) (s.getD (minIdx s) 0 + c) hi
      unfold bumpAt
      omega
    rw [List.foldl_cons, fold_bump_sum js _ (bumpAt_ne_nil s _ c hs), hsum, List.sum_cons]
    omega

theorem bump_invariant (s : List Nat) (c cmax : Nat) (hne : s ≠ []) (hc : c ≤ cmax)
    (h : ∀ v ∈ s, s.length * v ≤ s.sum + (s.length - 1) * cmax) :
    ∀ v ∈ bumpAt s (minIdx s) c,
      (bumpAt s (minIdx s) c).length * v ≤
        (bumpAt s (minIdx s) c).sum + ((bumpAt s (minIdx s) c).length - 1) * cmax := by
  have hi : minIdx s < s.length := minIdx_lt_length s hne
  have hlen : (bumpAt s (minIdx s) c).length = s.length := by simp [bumpAt]
  have hsum : (bumpAt s (minIdx s) c).sum = s.sum + c := by
    have hset := sum_set_getD s (minIdx s) (s.getD (minIdx s) 0 + c) hi
    unfold bumpAt
    omega
  obtain ⟨k, hk⟩ : ∃ k, s.length = k + 1 := by
    have : 0 < s.length := List.length_pos.mpr hne
    exact ⟨s.length - 1, by omega⟩
  intro v hv
  rw [hlen, hsum, hk]
  simp only [Nat.add_sub_cancel]
  have hv' : v ∈ s.set (minIdx s) (s.getD (minIdx s) 0 + c) := hv
  rcases List.mem_or_eq_of_mem_set hv' with hvs | rfl
  · have hbase := h v hvs
    rw [hk] at hbase
    simp only [Nat.add_sub_cancel] at hbase
    omega
  · have hmin : s.getD (minIdx s) 0 = minVal s := getD_minIdx s hne
    rw [hmin]
    have h1 : s.length * minVal s ≤ s.sum := length_mul_minVal_le_sum s
    rw [hk] at h1
    have hcle : k * c ≤ k * cmax := Nat.mul_le_mul_left k hc
    have hgoal : (k + 1) * (minVal s + c) = (k + 1) * minVal s + k * c + c := by ring
    omega

theorem fold_bump_invariant (cmax : Nat) : ∀ (js : List Nat) (s : List Nat), s ≠ [] →
    (∀ c ∈ js, c ≤ cmax) →
    (∀ v ∈ s, s.length * v ≤ s.sum + (s.length - 1) * cmax) →
    ∀ v ∈ js.foldl (fun s c => bumpAt s (minIdx s) c) s,
      (js.foldl (fun s c => bumpAt s (minIdx s) c) s).length * v ≤
        (js.foldl (fun s c => bumpAt s (minIdx s) c) s).sum +
          ((js.foldl (fun s c => bumpAt s (minIdx s) c) s).length - 1) * cmax
  | [], s, _, _, hinv => by simpa using hinv
  | c :: js, s, hs, hcs, hinv => by
    have hstep := bump_invariant s c cmax hs (hcs c (by simp)) hinv
    have hne' : bumpAt s (minIdx s) c ≠ [] := bumpAt_ne_nil s _ c hs
    have hrec := fold_bump_invariant cmax js (bumpAt s (minIdx s) c) hne'
      (fun c' hc' => hcs c' (by simp [hc'])) hstep
    simpa using hrec

theorem sum_range_getD : ∀ l : List Nat,
    (∑ i ∈ Finset.range l.length, l.getD i 0) = l.sum
  | [] => by simp
  | a :: m => by
    rw [List.length_cons, Finset.sum_range_succ']
    simp only [List.getD_cons_succ, List.getD_cons_zero, List.sum_cons]
    rw [sum_range_getD m]
    omega

theorem sum_altLoad (costs : List Nat) (f : Nat → Nat) (W : Nat)
    (hf : ∀ i, i < costs.length → f i < W) :
    (∑ r ∈ Finset.range W, altLoad costs f r) = costs.sum := by
  unfold altLoad
  rw [Finset.sum_comm]
  have hrow : ∀ i ∈ Finset.range costs.length,
      (∑ r ∈ Finset.range W, if f i = r then costs.getD i 0 else 0) =
        costs.getD i 0 := by
    intro i hi
    rw [Finset.sum_ite_eq]
    simp [Finset.mem_range.mpr (hf i (Finset.mem_range.mp hi))]
  rw [Finset.sum_congr rfl hrow]
  exact sum_range_getD costs

theorem insertDesc_perm [LinearOrder α] (x : Nat × α) :
    ∀ l : List (Nat × α), (insertDesc x l).Perm (x :: l)
  | [] => List.Perm.refl _
  | y :: ys => by
    by_cases h : lexGe x y
    · simp [insertDesc, h]
    · simp only [insertDesc, h, if_neg, ite_false]
      exact (List.Perm.cons y (insertDesc_perm x ys)).trans (List.Perm.swap x y ys)

theorem sortDesc_perm [LinearOrder α] : ∀ l : List (Nat × α), (sortDesc l).Perm l
  | [] => List.Perm.refl _
  | a :: l => (insertDesc_perm a (sortDesc l)).trans (List.Perm.cons a (sortDesc_perm l))

/-- C5: the maximum per-rank cumulative cost produced by the size-balanced
greedy assignment is at most the maximum cost of ANY assignment of the same
jobs to `W` ranks (in particular the optimal one) plus the largest single job
cost. -/
theorem c5_lpt_bound [LinearOrder α] (jobs : List (Nat × α)) (W : Nat)
    (hW : 1 ≤ W) (f : Nat → Nat) (hf : ∀ i, i < jobs.length → f i < W) :
    maxVal (sizeBalance jobs W).2 ≤
      maxVal ((List.range W).map (altLoad (jobs.map Prod.fst) f)) +
        maxVal (jobs.map Prod.fst) := by
  classical
  set costs := jobs.map Prod.fst with hcosts
  set cmax := maxVal costs with hcmax
  set sorted := (sortDesc jobs).map Prod.fst with hsorted
  set s0 : List Nat := List.replicate W 0 with hs0
  have hs0ne : s0 ≠ [] := by
    have : s0.length = W := by simp [hs0]
    exact List.ne_nil_of_length_pos (by omega)
  have hperm : sorted.Perm costs := (sortDesc_perm jobs).map Prod.fst
  have hall : ∀ c ∈ sorted, c ≤ cmax := fun c hc =>
    le_maxVal costs c (hperm.mem_iff.mp hc)
  have hinv0 : ∀ v ∈ s0, s0.length * v ≤ s0.sum + (s0.length - 1) * cmax := by
    intro v hv
    have : v = 0 := List.eq_of_mem_replicate hv
    simp [this]
  have hsz : (sizeBalance jobs W).2 =
      sorted.foldl (fun s c => bumpAt s (minIdx s) c) s0 := by
    unfold sizeBalance
    exact sizes_fold_eq (sortDesc jobs) (List.replicate W [], List.replicate W 0)
  set final := sorted.foldl (fun s c => bumpAt s (minIdx s) c) s0 with hfinal
  have hflen : final.length = s0.length := fold_bump_length sorted s0
  have hflen' : final.length = W := by simp [hflen, hs0]
  have hfsum : final.sum = costs.sum := by
    rw [hfinal, fold_bump_sum sorted s0 hs0ne]
    simp [hs0, hperm.sum_eq]
  have hfne : final ≠ [] := List.ne_nil_of_length_pos (by omega)
  have hinv := fold_bump_invariant cmax sorted s0 hs0ne hall hinv0
  have hgmax : final.length * maxVal final ≤ final.sum + (final.length - 1) * cmax :=
    hinv (maxVal final) (maxVal_mem final hfne)
  rw [hflen', hfsum] at hgmax
  set altMax := maxVal ((List.range W).map (altLoad costs f)) with haltMax
  have htotal : costs.sum ≤ W * altMax := by
    have hW_sum : (∑ r ∈ Finset.range W, altLoad costs f r) = costs.sum :=
      sum_altLoad costs f W (by simpa [hcosts] using hf)
    have hle : ∀ r ∈ Finset.range W, altLoad costs f r ≤ altMax := by
      intro r hr
      exact le_maxVal _ _ (List.mem_map_of_mem _ (List.mem_range.mpr (Finset.mem_range.mp hr)))
    calc costs.sum = ∑ r ∈ Finset.range W, altLoad costs f r := hW_sum.symm
      _ ≤ ∑ _r ∈ Finset.range W, altMax := Finset.sum_le_sum hle
      _ = W * altMax := by simp [Finset.sum_const, Finset.card_range, Nat.smul_one_eq_cast]
  have hchain : W * maxVal final ≤ W * (altMax + cmax) := by
    have h1 : W * maxVal final ≤ costs.sum + (W - 1) * cmax := hgmax
    have h2 : (W - 1) * cmax ≤ W * cmax := Nat.mul_le_mul_right cmax (by omega)
    have h3 : W * (altMax + cmax) = W * altMax + W * cmax := by ring
    omega
  have := Nat.le_of_mul_le_mul_left hchain (by omega : 0 < W)
  rw [hsz]
  exact this

/-- Witness for C5 on three concrete jobs and two ranks. -/
theorem c5_lpt_bound_witness :
    (1 : Nat) ≤ 2 ∧
    maxVal (sizeBalance [((5 : Nat), (0 : Nat)), (3, 1), (2, 2)] 2).2 ≤
      maxVal ((List.range 2).map
        (altLoad ([((5 : Nat), (0 : Nat)), (3, 1), (2, 2)].map Prod.fst)
          (fun i => i % 2))) +
        maxVal ([((5 : Nat), (0 : Nat)), (3, 1), (2, 2)].map Prod.fst) := by
  refine ⟨by decide, ?_⟩
  exact c5_lpt_bound [((5 : Nat), (0 : Nat)), (3, 1), (2, 2)] 2 (by decide)
    (fun i => i % 2) (fun i _ => Nat.mod_lt i (by decide))

/-! ## C6: determinism and the structure of the size-balanced strategy -/

theorem lexGe_total [LinearOrder α] (x y : Nat × α) (h : ¬ lexGe x y) :
    lexGe y x := by
  unfold lexGe at *
  push_neg at h
  rcases lt_trichotomy x.1 y.1 with hlt | heq | hgt
  · exact Or.inl hlt
  · exact Or.inr ⟨heq, le_of_lt (h.2 heq.symm)⟩
  · exact absurd hgt (not_lt.mpr h.1)

theorem lexGe_trans [LinearOrder α] (x y z : Nat × α)
    (h1 : lexGe x y) (h2 : lexGe y z) : lexGe x z := by
  unfold lexGe at *
  rcases h1 with h1 | ⟨h1e, h1le⟩ <;> rcases h2 with h2 | ⟨h2e, h2le⟩
  · exact Or.inl (lt_trans h2 h1)
  · exact Or.inl (by rw [h2e]; exact h1)
  · exact Or.inl (by rw [← h1e]; exact h2)
  · exact Or.inr ⟨h2e.trans h1e, le_trans h2le h1le⟩

theorem insertDesc_pairwise [LinearOrder α] (x : Nat × α) (l : List (Nat × α))
    (h : l.Pairwise lexGe) : (insertDesc x l).Pairwise lexGe := by
  induction l with
  | nil => simp [insertDesc]
  | cons y ys ih =>
    rcases List.pairwise_cons.mp h with ⟨hy, hys⟩
    by_cases hc : lexGe x y
    · simp only [insertDesc, hc, if_pos, ite_true]
      refine List.pairwise_cons.mpr ⟨?_, h⟩
      intro b hb
      rcases List.mem_cons.mp hb with hbx | hb'
      · rw [hbx]; exact hc
      · exact lexGe_trans x y b hc (hy b hb')
    · simp only [insertDesc, hc, if_neg, ite_false]
      refine List.pairwise_cons.mpr ⟨?_, ih hys⟩
      intro b hb
      rcases List.mem_cons.mp ((insertDesc_perm x ys).mem_iff.mp hb) with hbx | hb'
      · rw [hbx]; exact lexGe_total x y hc
      · exact hy b hb'

theorem sortDesc_pairwise [LinearOrder α] :
    ∀ l : List (Nat × α), (sortDesc l).Pairwise lexGe
  | [] => by simp [sortDesc]
  | a :: l => insertDesc_pairwise a (sortDesc l) (sortDesc_pairwise l)

/-- C6: the size-balanced strategy (i) reorders the jobs into a permutation
sorted by descending cost, (ii) at every step the chosen target node is the
lowest-index node among those of minimal cumulative load (`minIdx` returns an
in-range index holding the minimum, and every strictly smaller index holds a
strictly larger load), and (iii) the whole assignment is a function of the
costs and `world_size` alone: equal inputs give identical per-rank shards. -/
theorem c6_size_balanced_deterministic [LinearOrder α]
    (jobs : List (Nat × α)) (W : Nat) :
    (sortDesc jobs).Perm jobs ∧
    (sortDesc jobs).Pairwise (fun a b => b.1 ≤ a.1) ∧
    (∀ s : List Nat, s ≠ [] →
      minIdx s < s.length ∧ s.getD (minIdx s) 0 = minVal s ∧
      ∀ j, j < minIdx s → minVal s < s.getD j 0) ∧
    (∀ (jobs2 : List (Nat × α)) (W2 : Nat), jobs = jobs2 → W = W2 →
      sizeBalance jobs W = sizeBalance jobs2 W2) := by
  refine ⟨sortDesc_perm jobs, ?_, ?_, ?_⟩
  · refine (sortDesc_pairwise jobs).imp ?_
    intro a b h
    rcases h with h | ⟨he, _⟩
    · exact le_of_lt h
    · exact le_of_eq he
  · intro s hs
    exact ⟨minIdx_lt_length s hs, getD_minIdx s hs,
      fun j hj => minIdx_first s j hj hs⟩
  · intro jobs2 W2 h1 h2
    rw [h1, h2]

/-- Witness for C6 on concrete jobs and loads. -/
theorem c6_size_balanced_deterministic_witness :
    (sortDesc [((1 : Nat), (7 : Nat)), (3, 1), (3, 5)]).Perm
      [((1 : Nat), (7 : Nat)), (3, 1), (3, 5)] ∧
    minIdx [2, 1, 1] < 3 := by
  refine ⟨(c6_size_balanced_deterministic [((1 : Nat), (7 : Nat)), (3, 1), (3, 5)] 2).1, ?_⟩
  have h := (c6_size_balanced_deterministic ([] : List (Nat × Nat)) 2).2.2.1
    [2, 1, 1] (by decide)
  simpa using h.1

end Remesh
